import Mathlib

/-!
Shallow embedding of the knockadapt core (knockoff_stats.py, knockoff_filter.py).

Real-valued numpy arrays are modelled as `List ℚ`; matrices as `List (List ℚ)`.
Python runtime errors are modelled with an explicit error type, and fallible
functions return `Except PyError _`.  `+infinity` results are modelled by
`Option` (`none` = `np.inf`).
-/

namespace Knockadapt

/-- Python runtime errors that the embedded code can raise. -/
inductive PyError where
  | valueError : PyError
  | indexError : PyError
  | attributeError : PyError
  deriving DecidableEq, Repr

instance {ε α : Type} [DecidableEq ε] [DecidableEq α] : DecidableEq (Except ε α) := fun a b =>
  match a, b with
  | .ok x, .ok y => if h : x = y then .isTrue (by rw [h]) else .isFalse (by simp [h])
  | .error x, .error y => if h : x = y then .isTrue (by rw [h]) else .isFalse (by simp [h])
  | .ok _, .error _ => .isFalse (by simp)
  | .error _, .ok _ => .isFalse (by simp)

/-- Embedding of `np.sum(np.abs(zs[gs == lab]))`: the sum of absolute values of
the entries of `zs` at the positions where the mask `gs == lab` is true.
The mask has length `gs.length` (in all call sites `zs` has the same length). -/
def sumAbsGroup (zs : List ℚ) (gs : List ℕ) (lab : ℕ) : ℚ :=
  ∑ i in Finset.range gs.length, if gs.getD i 0 = lab then |zs.getD i 0| else 0

/-- Embedding of `calc_LCD(Z, groups)` from knockoff_stats.py.
`p = int(Z.shape[0]/2)`; odd-length `Z` raises `ValueError`; `groups = None`
defaults to `np.arange(1, p+1)`; `m = np.unique(groups).shape[0]`; entry `j`
(0-based) is `sum(|Z_true[groups == j+1]|) - sum(|Z_knockoff[groups == j+1]|)`. -/
def calc_LCD (Z : List ℚ) (groups : Option (List ℕ)) : Except PyError (List ℚ) :=
  let p := Z.length / 2
  if 2 * p ≠ Z.length then .error .valueError
  else
    let gs := groups.getD ((List.range p).map (· + 1))
    let m := gs.dedup.length
    .ok ((List.range m).map fun j =>
      sumAbsGroup (Z.take p) gs (j + 1) - sumAbsGroup (Z.drop p) gs (j + 1))

/-- Embedding of `np.sign` on a rational. -/
def pySign (x : ℚ) : ℚ := if 0 < x then 1 else if x < 0 then -1 else 0

/-- The per-feature signed maximum of `calc_LSM`:
`np.maximum(Z[i], Z[i+p]) * np.sign(|Z[i]| - |Z[i+p]|)`. -/
def lsmFeat (Z : List ℚ) (p i : ℕ) : ℚ :=
  max (Z.getD i 0) (Z.getD (i + p) 0) * pySign (|Z.getD i 0| - |Z.getD (i + p) 0|)

/-- Embedding of a numpy indexed accumulation `W[idx] += v` with a (possibly
negative, Python-style wrapping) integer index; out-of-range raises IndexError. -/
def npAddAt (W : List ℚ) (idx : ℤ) (v : ℚ) : Except PyError (List ℚ) :=
  if idx < -(W.length : ℤ) ∨ (W.length : ℤ) ≤ idx then .error .indexError
  else
    let j := (if idx < 0 then idx + W.length else idx).toNat
    .ok (W.set j (W.getD j 0 + v))

/-- The accumulation loop `for i in range(p): W_group[groups[i]-1] += W[i]`
of `calc_LSM`, iterating over the index list still to process. -/
def lsmAccum (gs : List ℕ) (f : ℕ → ℚ) : List ℕ → List ℚ → Except PyError (List ℚ)
  | [], acc => .ok acc
  | i :: rest, acc =>
    match npAddAt acc ((gs.getD i 0 : ℤ) - 1) (f i) with
    | .error e => .error e
    | .ok next => lsmAccum gs f rest next

/-- Embedding of `calc_LSM(Z, groups)` from knockoff_stats.py.
`p = groups.shape[0]`; there is no check that `Z` has length `2p` — the fancy
indexing `Z[inds + p]` raises IndexError only when `Z` is shorter than `2p`
(for `p ≥ 1`); per-feature signed maxima are accumulated into
`W_group[groups[i] - 1]`, which raises IndexError when a label exceeds `m`. -/
def calc_LSM (Z : List ℚ) (groups : List ℕ) : Except PyError (List ℚ) :=
  let p := groups.length
  let m := groups.dedup.length
  if Z.length < 2 * p then .error .indexError
  else
    lsmAccum groups (lsmFeat Z p) (List.range p) (List.replicate m 0)

/-- Embedding of the estimated false discovery proportion of
`calc_data_dependent_threshhold`:
`hat_fdp(t) = ((W <= -t).sum() + offset) / max(1, np.sum(W >= t))`. -/
def hatFDP (W : List ℚ) (offset : ℕ) (t : ℚ) : ℚ :=
  (((W.countP fun w => decide (w ≤ -t)) + offset : ℕ) : ℚ) /
    ((max 1 (W.countP fun w => decide (t ≤ w)) : ℕ) : ℚ)

/-- Embedding of `calc_data_dependent_threshhold(W, fdr, offset)` from
knockoff_stats.py.  `Ts = [0] + sorted(np.abs(W))`; the first candidate whose
`hat_fdp` is at most `fdr` is returned, `np.inf` (modelled as `none`) when
there is no such candidate. -/
def calc_data_dependent_threshhold (W : List ℚ) (fdr : ℚ) (offset : ℕ) : Option ℚ :=
  let Ts := 0 :: List.insertionSort (· ≤ ·) (W.map fun w => |w|)
  (Ts.filter fun t => decide (hatFDP W offset t ≤ fdr)).head?

/-- The module-level names defined by knockoff_stats.py (the attribute set of
the module object bound to `kstats` in knockoff_filter.py). -/
def kstats_defs : List String :=
  ["calc_mse", "use_reg_lasso", "parse_y_dist", "calc_LCD", "calc_LSM",
   "calc_lambda_paths", "calc_nongroup_LSM", "calc_nongroup_LCD",
   "fit_lasso", "fit_group_lasso", "group_lasso_LSM", "group_lasso_LCD",
   "calc_data_dependent_threshhold", "DEFAULT_REG_VALS"]

/-- Embedding of `MXKnockoffFilter.make_selections(W, fdr)`.  The Python body
evaluates the attribute lookup `kstats.data_dependent_threshhold` before
anything else; if the module lacks that attribute, an AttributeError is
raised.  Were the lookup to succeed it would compute
`T = threshold(W, fdr)` and return the mask `W >= T` (all false at `np.inf`). -/
def make_selections (W : List ℚ) (fdr : ℚ) : Except PyError (List Bool) :=
  if "data_dependent_threshhold" ∈ kstats_defs then
    match calc_data_dependent_threshhold W fdr 1 with
    | some T => .ok (W.map fun w => decide (T ≤ w))
    | none => .ok (W.map fun _ => false)
  else .error .attributeError

/-- Embedding of a Python slice bound `a[:r]` / `a[r:]` for a list of length
`n`: negative indices count from the end, positive ones clamp at `n`. -/
def pySliceIdx (n : ℕ) (r : ℤ) : ℕ :=
  if r < 0 then ((n : ℤ) + r).toNat else min r.toNat n

/-- Embedding of `MXKnockoffFilter.sample_knockoffs`.  `G` is the (external)
group-Gaussian knockoff draw `group_gaussian_knockoffs(...)[:, :, 0]`.  With
recycling, rows `[:r]` come verbatim from `X` and rows `[r:]` from `G`.  With
the `_sdp_degen` debug flag, each row is rewritten to `sumcols_i - X_i` where
`sumcols = X[:, 0] + knockoffs[:, 0]`. -/
def sample_knockoffs (X G : List (List ℚ)) (recycle : Option ℤ) (sdpDegen : Bool) :
    List (List ℚ) :=
  let knock :=
    match recycle with
    | none => G
    | some r => X.take (pySliceIdx X.length r) ++ G.drop (pySliceIdx G.length r)
  if sdpDegen then
    (X.zip knock).map fun rowPair =>
      let s := rowPair.1.getD 0 0 + rowPair.2.getD 0 0
      rowPair.1.map fun x => s - x
  else knock

/-- Embedding of Python `int()` applied to a rational: truncation toward zero. -/
def pyInt (q : ℚ) : ℤ := if 0 ≤ q then ⌊q⌋ else ⌈q⌉

/-- Embedding of the `recycle_up_to` normalization in `MXKnockoffFilter.forward`:
`None` passes through; a value `<= 1` becomes `int(value * n)`; a value `> 1`
becomes `int(value)`. -/
def parse_recycle_up_to (v : Option ℚ) (n : ℕ) : Option ℤ :=
  match v with
  | none => none
  | some v => if v ≤ 1 then some (pyInt (v * n)) else some (pyInt v)

/-- An entry of the global `warnings` filter list.  `filterwarnings("ignore")`
pushes an ignore-everything entry; `resetwarnings()` clears the list. -/
inductive WarnFilter where
  | ignoreAll : WarnFilter
  deriving DecidableEq, Repr

/-- Embedding of the effect of `fit_lasso(X, knockoffs, y, y_dist)` on the
global warning-filter list `s` (the regression solver itself is an external
collaborator with no effect on that list).  Body: `filterwarnings("ignore")`;
then for `y_dist` gaussian or binomial a solver fit followed by
`resetwarnings()` (which clears the list to the empty default); for any other
`y_dist` a `ValueError` is raised before `resetwarnings()` ever runs. -/
def fit_lasso_warnstate (ydist : String) (s : List WarnFilter) :
    Except PyError Unit × List WarnFilter :=
  let s1 := WarnFilter.ignoreAll :: s
  if ydist = "gaussian" then (.ok (), [])
  else if ydist = "binomial" then (.ok (), [])
  else (.error .valueError, s1)

/-- The per-group swap of true and knockoff coordinates: for the features `i`
of group `g`, entries `i` and `i + p` of `Z` are exchanged; all other entries
are untouched. -/
def swapGroup (Z : List ℚ) (p : ℕ) (gs : List ℕ) (g : ℕ) : List ℚ :=
  (List.range Z.length).map fun i =>
    if i < p ∧ gs.getD i 0 = g then Z.getD (i + p) 0
    else if p ≤ i ∧ gs.getD (i - p) 0 = g then Z.getD (i - p) 0
    else Z.getD i 0

/-- Negation of the knockoff half of `Z` restricted to group `g`: entry `i + p`
is negated exactly when feature `i` lies in group `g`. -/
def negKnockGroup (Z : List ℚ) (p : ℕ) (gs : List ℕ) (g : ℕ) : List ℚ :=
  (List.range Z.length).map fun i =>
    if p ≤ i ∧ gs.getD (i - p) 0 = g then -(Z.getD i 0) else Z.getD i 0

/-! ### General helper lemmas -/

theorem getD_map_range {α : Type} (f : ℕ → α) (m k : ℕ) (d : α) (hk : k < m) :
    ((List.range m).map f).getD k d = f k := by
  rw [List.getD_eq_getElem?_getD, List.getElem?_map, List.getElem?_range hk]
  rfl

theorem getD_mem' {α : Type} (l : List α) (k : ℕ) (d : α) (hk : k < l.length) :
    l.getD k d ∈ l := by
  rw [List.getD_eq_getElem?_getD, List.getElem?_eq_getElem hk]
  exact List.getElem_mem hk

theorem getD_take_eq (l : List ℚ) (p i : ℕ) (d : ℚ) (h : i < p) :
    (l.take p).getD i d = l.getD i d := by
  rw [List.getD_eq_getElem?_getD, List.getD_eq_getElem?_getD, List.getElem?_take, if_pos h]

theorem getD_drop_eq (l : List ℚ) (p i : ℕ) (d : ℚ) :
    (l.drop p).getD i d = l.getD (p + i) d := by
  rw [List.getD_eq_getElem?_getD, List.getD_eq_getElem?_getD, List.getElem?_drop]

theorem getD_set_eq (l : List ℚ) (j k : ℕ) (v d : ℚ) :
    (l.set j v).getD k d = if j = k ∧ j < l.length then v else l.getD k d := by
  rw [List.getD_eq_getElem?_getD, List.getD_eq_getElem?_getD, List.getElem?_set]
  by_cases h1 : j = k
  · subst h1
    by_cases h2 : j < l.length
    · simp [h2]
    · have hnone : l[j]? = none := List.getElem?_eq_none (by omega)
      simp [h2, hnone]
  · simp [h1]

theorem getD_replicate_zero (n k : ℕ) :
    (List.replicate n (0 : ℚ)).getD k 0 = 0 := by
  rw [List.getD_eq_getElem?_getD, List.getElem?_replicate]
  split <;> rfl

theorem list_sum_map_neg {α : Type} (l : List α) (f : α → ℚ) :
    (l.map fun x => -f x).sum = -(l.map f).sum := by
  induction l with
  | nil => simp
  | cons a t ih => simp [ih]; ring

/-- The head of the filtered version of a sorted list is a minimal element of
the list satisfying the predicate; an empty filter result means no element
satisfies it. -/
theorem head_filter_sorted_min (pr : ℚ → Bool) (l : List ℚ) (hs : l.Sorted (· ≤ ·)) :
    (∀ t, (l.filter pr).head? = some t →
      t ∈ l ∧ pr t = true ∧ ∀ s ∈ l, pr s = true → t ≤ s) ∧
    ((l.filter pr).head? = none → ∀ s ∈ l, pr s ≠ true) := by
  have hsf : (l.filter pr).Sorted (· ≤ ·) := List.Pairwise.filter pr hs
  constructor
  · intro t ht
    cases hc : l.filter pr with
    | nil => rw [hc] at ht; simp at ht
    | cons a tl =>
      rw [hc, List.head?_cons, Option.some.injEq] at ht
      subst ht
      have hmem := List.mem_filter.mp (show a ∈ l.filter pr by
        rw [hc]; exact List.mem_cons_self a tl)
      refine ⟨hmem.1, hmem.2, ?_⟩
      intro s hsl hps
      have hscons : s ∈ a :: tl := by
        rw [← hc]; exact List.mem_filter.mpr ⟨hsl, hps⟩
      rcases List.mem_cons.mp hscons with rfl | hstl
      · exact le_refl s
      · rw [hc] at hsf
        exact List.rel_of_sorted_cons hsf s hstl
  · intro hn s hsl hps
    have hnil : l.filter pr = [] := by
      cases hc : l.filter pr with
      | nil => rfl
      | cons a tl => rw [hc, List.head?_cons] at hn; simp at hn
    exact (List.filter_eq_nil_iff.mp hnil) s hsl hps

theorem pySign_neg (x : ℚ) : pySign (-x) = -pySign x := by
  rw [pySign, pySign]
  split_ifs <;> first | ring1 | (exfalso; linarith)

/-! ### Characterizations of calc_LCD and calc_LSM -/

theorem calc_LCD_eq (Z : List ℚ) (gso : Option (List ℕ)) (p : ℕ) (hZ : Z.length = 2 * p) :
    calc_LCD Z gso =
      .ok ((List.range (gso.getD ((List.range p).map (· + 1))).dedup.length).map fun j =>
        sumAbsGroup (Z.take p) (gso.getD ((List.range p).map (· + 1))) (j + 1) -
        sumAbsGroup (Z.drop p) (gso.getD ((List.range p).map (· + 1))) (j + 1)) := by
  have hp : Z.length / 2 = p := by omega
  simp only [calc_LCD, hp]
  rw [if_neg (by omega)]

theorem npAddAt_ok (acc : List ℚ) (g : ℕ) (v : ℚ) (h1 : 1 ≤ g) (h2 : g ≤ acc.length) :
    npAddAt acc ((g : ℤ) - 1) v = .ok (acc.set (g - 1) (acc.getD (g - 1) 0 + v)) := by
  have hidx : ¬((g : ℤ) - 1 < -(acc.length : ℤ) ∨ (acc.length : ℤ) ≤ (g : ℤ) - 1) := by omega
  have hneg : ¬((g : ℤ) - 1 < 0) := by omega
  have htn : ((g : ℤ) - 1).toNat = g - 1 := by omega
  simp only [npAddAt, if_neg hidx, if_neg hneg, htn]

/-- Closed form of the accumulation loop of `calc_LSM`: when every processed
label lies within `[1, acc.length]`, the loop succeeds and each cell `k` ends
up with its initial value plus the sum of the per-feature statistics of the
features labelled `k + 1`. -/
theorem lsmAccum_spec (gs : List ℕ) (f : ℕ → ℚ) :
    ∀ (L : List ℕ) (acc : List ℚ),
      (∀ i ∈ L, 1 ≤ gs.getD i 0 ∧ gs.getD i 0 ≤ acc.length) →
      ∃ V, lsmAccum gs f L acc = .ok V ∧ V.length = acc.length ∧
        ∀ k < acc.length, V.getD k 0 =
          acc.getD k 0 + ((L.filter fun i => decide (gs.getD i 0 = k + 1)).map f).sum := by
  intro L
  induction L with
  | nil =>
    intro acc _
    exact ⟨acc, rfl, rfl, fun k _ => by simp⟩
  | cons i rest ih =>
    intro acc h
    obtain ⟨h1, h2⟩ := h i (List.mem_cons_self i rest)
    have hstep := npAddAt_ok acc (gs.getD i 0) (f i) h1 h2
    obtain ⟨V, hV, hlen, hpt⟩ :=
      ih (acc.set (gs.getD i 0 - 1) (acc.getD (gs.getD i 0 - 1) 0 + f i))
        (by
          intro i' hi'
          rw [List.length_set]
          exact h i' (List.mem_cons_of_mem i hi'))
    refine ⟨V, ?_, by rw [hlen, List.length_set], ?_⟩
    · rw [lsmAccum, hstep]
      exact hV
    · intro k hk
      rw [hpt k (by rw [List.length_set]; exact hk), getD_set_eq, List.filter_cons]
      by_cases hcase : gs.getD i 0 = k + 1
      · rw [if_pos ⟨by omega, by omega⟩, if_pos (by simpa using hcase)]
        have hsub : gs.getD i 0 - 1 = k := by omega
        rw [hsub, List.map_cons, List.sum_cons]
        ring
      · rw [if_neg (by rintro ⟨hq, -⟩; omega), if_neg (by simpa using hcase)]

/-- Closed form of `calc_LSM` under contiguous labels: it succeeds and cell
`k` holds the sum of the per-feature signed maxima of the features in group
`k + 1`. -/
theorem calc_LSM_spec (Z : List ℚ) (gs : List ℕ)
    (h2p : 2 * gs.length ≤ Z.length)
    (hlab : ∀ l ∈ gs, 1 ≤ l ∧ l ≤ gs.dedup.length) :
    ∃ V, calc_LSM Z gs = .ok V ∧ V.length = gs.dedup.length ∧
      ∀ k < gs.dedup.length, V.getD k 0 =
        (((List.range gs.length).filter fun i => decide (gs.getD i 0 = k + 1)).map
          (lsmFeat Z gs.length)).sum := by
  obtain ⟨V, hV, hlen, hpt⟩ := lsmAccum_spec gs (lsmFeat Z gs.length) (List.range gs.length)
    (List.replicate gs.dedup.length 0)
    (by
      intro i hi
      have hi' : i < gs.length := List.mem_range.mp hi
      have hmem : gs.getD i 0 ∈ gs := getD_mem' gs i 0 hi'
      simpa [List.length_replicate] using hlab _ hmem)
  refine ⟨V, ?_, by simpa [List.length_replicate] using hlen, fun k hk => ?_⟩
  · simp only [calc_LSM]
    rw [if_neg (by omega)]
    exact hV
  · rw [hpt k (by simpa [List.length_replicate] using hk), getD_replicate_zero, zero_add]

/-! ### Effect of the per-group swap on the aggregation rules -/

theorem swapGroup_length (Z : List ℚ) (p : ℕ) (gs : List ℕ) (g : ℕ) :
    (swapGroup Z p gs g).length = Z.length := by
  rw [swapGroup, List.length_map, List.length_range]

theorem swapGroup_getD (Z : List ℚ) (p : ℕ) (gs : List ℕ) (g i : ℕ) (hi : i < Z.length) :
    (swapGroup Z p gs g).getD i 0 =
      if i < p ∧ gs.getD i 0 = g then Z.getD (i + p) 0
      else if p ≤ i ∧ gs.getD (i - p) 0 = g then Z.getD (i - p) 0
      else Z.getD i 0 := by
  rw [swapGroup, getD_map_range _ _ _ _ hi]

theorem sumAbs_swap_take (Z : List ℚ) (gs : List ℕ) (p g lab : ℕ)
    (hZ : Z.length = 2 * p) (hg : gs.length = p) :
    sumAbsGroup ((swapGroup Z p gs g).take p) gs lab =
      if lab = g then sumAbsGroup (Z.drop p) gs g
      else sumAbsGroup (Z.take p) gs lab := by
  by_cases hl : lab = g
  · rw [if_pos hl, hl, sumAbsGroup, sumAbsGroup]
    refine Finset.sum_congr rfl fun i hi => ?_
    have hip : i < p := by rw [← hg]; exact Finset.mem_range.mp hi
    by_cases hgi : gs.getD i 0 = g
    · rw [if_pos hgi, if_pos hgi, getD_take_eq _ _ _ _ hip,
        swapGroup_getD _ _ _ _ _ (by omega), if_pos ⟨hip, hgi⟩, getD_drop_eq,
        Nat.add_comm]
    · rw [if_neg hgi, if_neg hgi]
  · rw [if_neg hl, sumAbsGroup, sumAbsGroup]
    refine Finset.sum_congr rfl fun i hi => ?_
    have hip : i < p := by rw [← hg]; exact Finset.mem_range.mp hi
    by_cases hgi : gs.getD i 0 = lab
    · rw [if_pos hgi, if_pos hgi, getD_take_eq _ _ _ _ hip, getD_take_eq _ _ _ _ hip,
        swapGroup_getD _ _ _ _ _ (by omega),
        if_neg (by rintro ⟨-, hq⟩; exact hl (hgi.symm.trans hq)),
        if_neg (by rintro ⟨hq, -⟩; omega)]
    · rw [if_neg hgi, if_neg hgi]

theorem sumAbs_swap_drop (Z : List ℚ) (gs : List ℕ) (p g lab : ℕ)
    (hZ : Z.length = 2 * p) (hg : gs.length = p) :
    sumAbsGroup ((swapGroup Z p gs g).drop p) gs lab =
      if lab = g then sumAbsGroup (Z.take p) gs g
      else sumAbsGroup (Z.drop p) gs lab := by
  by_cases hl : lab = g
  · rw [if_pos hl, hl, sumAbsGroup, sumAbsGroup]
    refine Finset.sum_congr rfl fun i hi => ?_
    have hip : i < p := by rw [← hg]; exact Finset.mem_range.mp hi
    by_cases hgi : gs.getD i 0 = g
    · rw [if_pos hgi, if_pos hgi, getD_drop_eq,
        swapGroup_getD _ _ _ _ _ (by omega),
        if_neg (by rintro ⟨hq, -⟩; omega),
        if_pos ⟨by omega, by rwa [Nat.add_sub_cancel_left]⟩,
        Nat.add_sub_cancel_left, getD_take_eq _ _ _ _ hip]
    · rw [if_neg hgi, if_neg hgi]
  · rw [if_neg hl, sumAbsGroup, sumAbsGroup]
    refine Finset.sum_congr rfl fun i hi => ?_
    have hip : i < p := by rw [← hg]; exact Finset.mem_range.mp hi
    by_cases hgi : gs.getD i 0 = lab
    · rw [if_pos hgi, if_pos hgi, getD_drop_eq, getD_drop_eq,
        swapGroup_getD _ _ _ _ _ (by omega),
        if_neg (by rintro ⟨hq, -⟩; omega),
        if_neg (by rw [Nat.add_sub_cancel_left]; rintro ⟨-, hq⟩; exact hl (hgi.symm.trans hq))]
    · rw [if_neg hgi, if_neg hgi]

theorem lsmFeat_swap (Z : List ℚ) (gs : List ℕ) (p g i : ℕ)
    (hZ : Z.length = 2 * p) (hi : i < p) :
    lsmFeat (swapGroup Z p gs g) p i =
      if gs.getD i 0 = g then -(lsmFeat Z p i) else lsmFeat Z p i := by
  have h1 : i < Z.length := by omega
  have h2 : i + p < Z.length := by omega
  rw [lsmFeat, lsmFeat, swapGroup_getD _ _ _ _ _ h1, swapGroup_getD _ _ _ _ _ h2]
  simp only [Nat.add_sub_cancel]
  by_cases hgi : gs.getD i 0 = g
  · have c1 : i < p ∧ gs.getD i 0 = g := ⟨hi, hgi⟩
    have c2 : ¬(i + p < p ∧ gs.getD (i + p) 0 = g) := by rintro ⟨hq, -⟩; omega
    have c3 : p ≤ i + p ∧ gs.getD i 0 = g := ⟨by omega, hgi⟩
    rw [if_pos hgi, if_pos c1, if_neg c2, if_pos c3,
      max_comm, ← neg_sub (|Z.getD i 0|), pySign_neg]
    ring
  · have c1 : ¬(i < p ∧ gs.getD i 0 = g) := by rintro ⟨-, hq⟩; exact hgi hq
    have c2 : ¬(p ≤ i ∧ gs.getD (i - p) 0 = g) := by rintro ⟨hq, -⟩; omega
    have c3 : ¬(i + p < p ∧ gs.getD (i + p) 0 = g) := by rintro ⟨hq, -⟩; omega
    have c4 : ¬(p ≤ i + p ∧ gs.getD i 0 = g) := by rintro ⟨-, hq⟩; exact hgi hq
    rw [if_neg hgi, if_neg c1, if_neg c2, if_neg c3, if_neg c4]

/-! ### Claim theorems -/

/-- C1: for every real vector `W`, target `fdr` and offset in `{0, 1}`,
`calc_data_dependent_threshhold` returns the smallest element `t` of the
candidate set `{0} ∪ {|W i|}` with
`(count(W ≤ -t) + offset) / max(1, count(W ≥ t)) ≤ fdr`, and `+infinity`
(modelled `none`) when no candidate satisfies the inequality. -/
theorem C1_threshold_smallest (W : List ℚ) (fdr : ℚ) (offset : ℕ)
    (_hoff : offset = 0 ∨ offset = 1) :
    (∀ t, calc_data_dependent_threshhold W fdr offset = some t →
      (t = 0 ∨ t ∈ W.map fun w => |w|) ∧ hatFDP W offset t ≤ fdr ∧
      ∀ s, (s = 0 ∨ s ∈ W.map fun w => |w|) → hatFDP W offset s ≤ fdr → t ≤ s) ∧
    (calc_data_dependent_threshhold W fdr offset = none →
      ∀ s, (s = 0 ∨ s ∈ W.map fun w => |w|) → ¬ hatFDP W offset s ≤ fdr) := by
  have hmem : ∀ x : ℚ,
      x ∈ (0 :: List.insertionSort (· ≤ ·) (W.map fun w => |w|)) ↔
        (x = 0 ∨ x ∈ W.map fun w => |w|) := by
    intro x
    rw [List.mem_cons, (List.perm_insertionSort (· ≤ ·) (W.map fun w => |w|)).mem_iff]
  have hsorted : (0 :: List.insertionSort (· ≤ ·) (W.map fun w => |w|)).Sorted (· ≤ ·) := by
    rw [List.sorted_cons]
    refine ⟨fun b hb => ?_, List.sorted_insertionSort _ _⟩
    obtain ⟨w, -, rfl⟩ :=
      List.mem_map.mp ((List.perm_insertionSort (· ≤ ·) (W.map fun w => |w|)).mem_iff.mp hb)
    exact abs_nonneg w
  have hmain := head_filter_sorted_min (fun t => decide (hatFDP W offset t ≤ fdr)) _ hsorted
  have unf : calc_data_dependent_threshhold W fdr offset =
      ((0 :: List.insertionSort (· ≤ ·) (W.map fun w => |w|)).filter
        fun t => decide (hatFDP W offset t ≤ fdr)).head? := rfl
  constructor
  · intro t ht
    obtain ⟨h1, h2, h3⟩ := hmain.1 t (unf ▸ ht)
    exact ⟨(hmem t).mp h1, of_decide_eq_true h2,
      fun s hs hf => h3 s ((hmem s).mpr hs) (decide_eq_true hf)⟩
  · intro hn s hs hf
    exact hmain.2 (unf ▸ hn) s ((hmem s).mpr hs) (decide_eq_true hf)

/-- Witness for C1 at `W = [2]`, `fdr = 1`, `offset = 1`: the returned
threshold `0` is a candidate with acceptable estimated FDP. -/
theorem C1_threshold_smallest_witness :
    ((0 : ℚ) = 0 ∨ (0 : ℚ) ∈ ([2] : List ℚ).map fun w => |w|) ∧ hatFDP [2] 1 0 ≤ 1 := by
  have h := (C1_threshold_smallest [2] 1 1 (Or.inr rfl)).1 0
    (by norm_num [calc_data_dependent_threshhold, hatFDP, List.insertionSort,
      List.orderedInsert, List.filter])
  exact ⟨h.1, h.2.1⟩

/-- C2 (code bug): evaluating `make_selections` on the spec's own example-style
input raises an AttributeError instead of returning a selection set, because
the looked-up name `data_dependent_threshhold` is not defined by the
knockoff_stats module. -/
theorem C2_make_selections_raises :
    make_selections [(2 : ℚ)] (1 / 10) = .error .attributeError := by
  rw [make_selections, if_neg (by decide)]

/-- C10: for every `W` and `fdr`, `make_selections` fails with an
attribute-lookup error: the knockoff_stats module defines
`calc_data_dependent_threshhold` but not `data_dependent_threshhold`. -/
theorem C10_attribute_lookup_fails (W : List ℚ) (fdr : ℚ) :
    make_selections W fdr = .error .attributeError ∧
    "data_dependent_threshhold" ∉ kstats_defs ∧
    "calc_data_dependent_threshhold" ∈ kstats_defs := by
  refine ⟨?_, by decide, by decide⟩
  rw [make_selections, if_neg (by decide)]

/-- C3 counterexample: with the positive (but non-contiguous) label vector
`groups = [2]` and `Z = [1, 0]`, `calc_LCD` returns `[0]`, while the claimed
per-group value `sum|Z_true in group 2| - sum|Z_knockoff in group 2|` is `1`. -/
theorem C3_counterexample :
    calc_LCD [(1 : ℚ), 0] (some [2]) = .ok [0] ∧
    sumAbsGroup [(1 : ℚ)] [2] 2 - sumAbsGroup [(0 : ℚ)] [2] 2 = 1 ∧
    (0 : ℚ) ≠ 1 := by
  refine ⟨?_, ?_, by norm_num⟩
  · norm_num [calc_LCD, sumAbsGroup, Finset.sum_range_succ, List.range_succ]
  · norm_num [sumAbsGroup, Finset.sum_range_succ]

/-- C3 (amended): when the distinct labels are exactly `1..m` (every label `g`
satisfies `1 ≤ g ≤ m`), `calc_LCD` returns a length-`m` vector whose cell
`g - 1` is `sum|Z_true in group g| - sum|Z_knockoff in group g|` for every
label `g`; and `groups = None` defaults to the identity grouping `1..p`. -/
theorem C3_LCD_per_group (Z : List ℚ) (groups : List ℕ) (p : ℕ)
    (hZ : Z.length = 2 * p) (_hg : groups.length = p)
    (hlab : ∀ g ∈ groups, 1 ≤ g ∧ g ≤ groups.dedup.length) :
    (∃ W, calc_LCD Z (some groups) = .ok W ∧ W.length = groups.dedup.length ∧
      ∀ g ∈ groups, W.getD (g - 1) 0 =
        sumAbsGroup (Z.take p) groups g - sumAbsGroup (Z.drop p) groups g) ∧
    calc_LCD Z none = calc_LCD Z (some ((List.range p).map (· + 1))) := by
  constructor
  · rw [calc_LCD_eq Z (some groups) p hZ]
    simp only [Option.getD_some]
    refine ⟨_, rfl, by rw [List.length_map, List.length_range], ?_⟩
    intro g hgmem
    obtain ⟨hge, hgle⟩ := hlab g hgmem
    rw [getD_map_range _ _ _ _ (by omega), Nat.sub_add_cancel hge]
  · rw [calc_LCD_eq Z none p hZ, calc_LCD_eq Z (some ((List.range p).map (· + 1))) p hZ]
    simp only [Option.getD_none, Option.getD_some]

/-- Witness for C3 at `Z = [1, 2, 3, 4]`, `groups = [1, 2]`, `p = 2`. -/
theorem C3_LCD_per_group_witness :
    (∃ W, calc_LCD [(1 : ℚ), 2, 3, 4] (some [1, 2]) = .ok W ∧
      W.length = ([1, 2] : List ℕ).dedup.length ∧
      ∀ g ∈ ([1, 2] : List ℕ), W.getD (g - 1) 0 =
        sumAbsGroup ([(1 : ℚ), 2, 3, 4].take 2) [1, 2] g -
          sumAbsGroup ([(1 : ℚ), 2, 3, 4].drop 2) [1, 2] g) ∧
    calc_LCD [(1 : ℚ), 2, 3, 4] none =
      calc_LCD [(1 : ℚ), 2, 3, 4] (some ((List.range 2).map (· + 1))) :=
  C3_LCD_per_group [(1 : ℚ), 2, 3, 4] [1, 2] 2 (by decide) (by decide) (by decide)

/-- C5 counterexample: `Z = [1, 0, 0, 0]` has even length `2p = 4` and
`groups = [1, 3]` is a length-2 vector of positive labels, yet `calc_LSM`
raises IndexError (label 3 exceeds `m = 2`) instead of returning a
length-`m` vector. -/
theorem C5_counterexample :
    calc_LSM [(1 : ℚ), 0, 0, 0] [1, 3] = .error .indexError := by
  norm_num [calc_LSM, lsmAccum, lsmFeat, npAddAt, pySign, List.range_succ, List.replicate]

/-- C5 (amended): for valid `Z` of even length `2p` and a length-`p` positive
label vector, `calc_LCD` always returns a vector of length `m = #distinct`;
`calc_LSM` does so provided every label is at most `m` (labels exactly
`1..m`), and otherwise can raise IndexError. -/
theorem C5_output_length (Z : List ℚ) (groups : List ℕ) (p : ℕ)
    (hZ : Z.length = 2 * p) (hg : groups.length = p) :
    (∃ W, calc_LCD Z (some groups) = .ok W ∧ W.length = groups.dedup.length) ∧
    ((∀ g ∈ groups, 1 ≤ g ∧ g ≤ groups.dedup.length) →
      ∃ V, calc_LSM Z groups = .ok V ∧ V.length = groups.dedup.length) := by
  constructor
  · rw [calc_LCD_eq Z (some groups) p hZ]
    simp only [Option.getD_some]
    exact ⟨_, rfl, by rw [List.length_map, List.length_range]⟩
  · intro hlab
    obtain ⟨V, hV, hlen, -⟩ := calc_LSM_spec Z groups (by omega) hlab
    exact ⟨V, hV, hlen⟩

/-- Witness for C5 at `Z = [1, 2, 3, 4]`, `groups = [1, 1]`, `p = 2`. -/
theorem C5_output_length_witness :
    (∃ W, calc_LCD [(1 : ℚ), 2, 3, 4] (some [1, 1]) = .ok W ∧
      W.length = ([1, 1] : List ℕ).dedup.length) ∧
    ((∀ g ∈ ([1, 1] : List ℕ), 1 ≤ g ∧ g ≤ ([1, 1] : List ℕ).dedup.length) →
      ∃ V, calc_LSM [(1 : ℚ), 2, 3, 4] [1, 1] = .ok V ∧
        V.length = ([1, 1] : List ℕ).dedup.length) :=
  C5_output_length [(1 : ℚ), 2, 3, 4] [1, 1] 2 (by decide) (by decide)

/-- C6 counterexample: `Z = [1, 2, 3]` has odd length, yet `calc_LSM` with
`groups = [1]` succeeds (returning `[-2]`) instead of failing with a
shape-mismatch error. -/
theorem C6_counterexample :
    calc_LSM [(1 : ℚ), 2, 3] [1] = .ok [-2] := by
  norm_num [calc_LSM, lsmAccum, lsmFeat, npAddAt, pySign, List.range_succ, List.replicate]

/-- C6 (amended): for every odd-length `Z`, `calc_LCD` fails with the
shape-mismatch `ValueError` (with or without an explicit `groups`), but
`calc_LSM` performs no length check on `Z`: it succeeds whenever `Z` is at
least as long as `2 * len(groups)` and the labels are exactly `1..m`. -/
theorem C6_odd_length (Z : List ℚ) (groups : List ℕ) (hodd : Z.length % 2 = 1) :
    calc_LCD Z (some groups) = .error .valueError ∧
    calc_LCD Z none = .error .valueError ∧
    ((∀ g ∈ groups, 1 ≤ g ∧ g ≤ groups.dedup.length) → 2 * groups.length ≤ Z.length →
      ∃ V, calc_LSM Z groups = .ok V) := by
  refine ⟨?_, ?_, fun hlab hlen => ?_⟩
  · rw [calc_LCD]
    simp only []
    rw [if_pos (by omega)]
  · rw [calc_LCD]
    simp only []
    rw [if_pos (by omega)]
  · obtain ⟨V, hV, -, -⟩ := calc_LSM_spec Z groups hlen hlab
    exact ⟨V, hV⟩

/-- Witness for C6 at `Z = [1, 2, 3]` (odd length), `groups = [1]`. -/
theorem C6_odd_length_witness :
    calc_LCD [(1 : ℚ), 2, 3] (some [1]) = .error .valueError ∧
    calc_LCD [(1 : ℚ), 2, 3] none = .error .valueError ∧
    ((∀ g ∈ ([1] : List ℕ), 1 ≤ g ∧ g ≤ ([1] : List ℕ).dedup.length) →
      2 * ([1] : List ℕ).length ≤ ([(1 : ℚ), 2, 3] : List ℚ).length →
      ∃ V, calc_LSM [(1 : ℚ), 2, 3] [1] = .ok V) :=
  C6_odd_length [(1 : ℚ), 2, 3] [1] (by decide)

/-- C4 counterexample: negating the knockoff half of `Z` for group 1 (here
`Z = [1, 2]`, `p = 1`, `groups = [1]`) leaves the LCD output `[-1]` unchanged
instead of negating it, since LCD only uses absolute values. -/
theorem C4_counterexample :
    negKnockGroup [(1 : ℚ), 2] 1 [1] 1 = [1, -2] ∧
    calc_LCD [(1 : ℚ), 2] (some [1]) = .ok [-1] ∧
    calc_LCD (negKnockGroup [(1 : ℚ), 2] 1 [1] 1) (some [1]) = .ok [-1] ∧
    (-1 : ℚ) ≠ -(-1 : ℚ) := by
  have h : negKnockGroup [(1 : ℚ), 2] 1 [1] 1 = [1, -2] := by
    norm_num [negKnockGroup, List.range_succ]
  refine ⟨h, ?_, ?_, by norm_num⟩
  · norm_num [calc_LCD, sumAbsGroup, Finset.sum_range_succ, List.range_succ]
  · rw [h]
    norm_num [calc_LCD, sumAbsGroup, Finset.sum_range_succ, List.range_succ]

/-- C4 (amended): for `Z` of length `2p`, a length-`p` grouping with labels
exactly `1..m`, and any group `g`, swapping the true and knockoff coordinates
of `Z` for the features of group `g` negates exactly cell `g - 1` of the
output of both `calc_LCD` and `calc_LSM` and leaves every other cell
unchanged. -/
theorem C4_swap_antisymmetry (Z : List ℚ) (groups : List ℕ) (p g : ℕ)
    (hZ : Z.length = 2 * p) (hg : groups.length = p)
    (hlab : ∀ l ∈ groups, 1 ≤ l ∧ l ≤ groups.dedup.length) :
    (∃ W W', calc_LCD Z (some groups) = .ok W ∧
      calc_LCD (swapGroup Z p groups g) (some groups) = .ok W' ∧
      W'.length = W.length ∧
      ∀ k < W.length, W'.getD k 0 = if k + 1 = g then -(W.getD k 0) else W.getD k 0) ∧
    (∃ V V', calc_LSM Z groups = .ok V ∧
      calc_LSM (swapGroup Z p groups g) groups = .ok V' ∧
      V'.length = V.length ∧
      ∀ k < V.length, V'.getD k 0 = if k + 1 = g then -(V.getD k 0) else V.getD k 0) := by
  subst hg
  have hZ' : (swapGroup Z groups.length groups g).length = 2 * groups.length := by
    rw [swapGroup_length]; exact hZ
  constructor
  · rw [calc_LCD_eq Z (some groups) groups.length hZ,
      calc_LCD_eq (swapGroup Z groups.length groups g) (some groups) groups.length hZ']
    simp only [Option.getD_some]
    refine ⟨_, _, rfl, rfl, by rw [List.length_map, List.length_map], ?_⟩
    intro k hk
    have hk' : k < groups.dedup.length := by
      rwa [List.length_map, List.length_range] at hk
    rw [getD_map_range _ _ _ _ hk', getD_map_range _ _ _ _ hk',
      sumAbs_swap_take Z groups groups.length g (k + 1) hZ rfl,
      sumAbs_swap_drop Z groups groups.length g (k + 1) hZ rfl]
    by_cases hc : k + 1 = g
    · rw [if_pos hc, if_pos hc, if_pos hc, hc]
      ring
    · rw [if_neg hc, if_neg hc, if_neg hc]
  · obtain ⟨V, hV, hVlen, hVpt⟩ := calc_LSM_spec Z groups (by omega) hlab
    obtain ⟨V', hV', hV'len, hV'pt⟩ :=
      calc_LSM_spec (swapGroup Z groups.length groups g) groups (by omega) hlab
    refine ⟨V, V', hV, hV', by rw [hVlen, hV'len], ?_⟩
    intro k hk
    have hk' : k < groups.dedup.length := by rwa [hVlen] at hk
    rw [hVpt k hk', hV'pt k hk']
    by_cases hc : k + 1 = g
    · rw [if_pos hc]
      have hmap : ((List.range groups.length).filter
            fun i => decide (groups.getD i 0 = k + 1)).map
            (lsmFeat (swapGroup Z groups.length groups g) groups.length) =
          ((List.range groups.length).filter
            fun i => decide (groups.getD i 0 = k + 1)).map
            fun i => -(lsmFeat Z groups.length i) := by
        refine List.map_congr_left fun i hi => ?_
        obtain ⟨hir, hip⟩ := List.mem_filter.mp hi
        have hilt : i < groups.length := List.mem_range.mp hir
        have hgi : groups.getD i 0 = g := by rw [← hc]; exact of_decide_eq_true hip
        rw [lsmFeat_swap Z groups groups.length g i hZ hilt, if_pos hgi]
      rw [hmap, list_sum_map_neg]
    · rw [if_neg hc]
      refine congrArg List.sum (List.map_congr_left fun i hi => ?_)
      obtain ⟨hir, hip⟩ := List.mem_filter.mp hi
      have hilt : i < groups.length := List.mem_range.mp hir
      have hgi : groups.getD i 0 ≠ g := fun hq =>
        hc ((of_decide_eq_true hip).symm.trans hq)
      rw [lsmFeat_swap Z groups groups.length g i hZ hilt, if_neg hgi]

/-- Witness for C4 at `Z = [1, 2, 3, 4]`, `groups = [1, 2]`, `p = 2`, `g = 1`. -/
theorem C4_swap_antisymmetry_witness :
    (∃ W W', calc_LCD [(1 : ℚ), 2, 3, 4] (some [1, 2]) = .ok W ∧
      calc_LCD (swapGroup [(1 : ℚ), 2, 3, 4] 2 [1, 2] 1) (some [1, 2]) = .ok W' ∧
      W'.length = W.length ∧
      ∀ k < W.length, W'.getD k 0 = if k + 1 = 1 then -(W.getD k 0) else W.getD k 0) ∧
    (∃ V V', calc_LSM [(1 : ℚ), 2, 3, 4] [1, 2] = .ok V ∧
      calc_LSM (swapGroup [(1 : ℚ), 2, 3, 4] 2 [1, 2] 1) [1, 2] = .ok V' ∧
      V'.length = V.length ∧
      ∀ k < V.length, V'.getD k 0 = if k + 1 = 1 then -(V.getD k 0) else V.getD k 0) :=
  C4_swap_antisymmetry [(1 : ℚ), 2, 3, 4] [1, 2] 2 1 (by decide) (by decide) (by decide)

/-- C7: with the degeneracy flag off and `0 ≤ r ≤ n`, the sampled knockoff
matrix agrees with `X` on rows `[0, r)` (element for element) and with the
externally constructed draw `G` on rows `[r, n)`. -/
theorem C7_recycling (X G : List (List ℚ)) (r : ℕ) (hr : r ≤ X.length)
    (hG : G.length = X.length) :
    (sample_knockoffs X G (some (r : ℤ)) false).take r = X.take r ∧
    (sample_knockoffs X G (some (r : ℤ)) false).drop r = G.drop r := by
  have hslX : pySliceIdx X.length (r : ℤ) = r := by
    rw [pySliceIdx, if_neg (by omega)]
    omega
  have hslG : pySliceIdx G.length (r : ℤ) = r := by
    rw [pySliceIdx, if_neg (by omega)]
    omega
  have hunf : sample_knockoffs X G (some (r : ℤ)) false = X.take r ++ G.drop r := by
    simp only [sample_knockoffs, hslX, hslG, if_neg Bool.false_ne_true]
  constructor
  · rw [hunf]
    set A := X.take r with hA
    have hlen : A.length = r := by rw [hA, List.length_take]; omega
    conv_lhs => rw [← hlen]
    exact List.take_left _ _
  · rw [hunf]
    set A := X.take r with hA
    have hlen : A.length = r := by rw [hA, List.length_take]; omega
    conv_lhs => rw [← hlen]
    rw [List.drop_left, hlen]

/-- Witness for C7 at `X = [[1], [2]]`, `G = [[5], [6]]`, `r = 1`. -/
theorem C7_recycling_witness :
    (sample_knockoffs [[(1 : ℚ)], [2]] [[5], [6]] (some ((1 : ℕ) : ℤ)) false).take 1 =
      [[(1 : ℚ)], [2]].take 1 ∧
    (sample_knockoffs [[(1 : ℚ)], [2]] [[5], [6]] (some ((1 : ℕ) : ℤ)) false).drop 1 =
      ([[5], [6]] : List (List ℚ)).drop 1 :=
  C7_recycling [[(1 : ℚ)], [2]] [[5], [6]] 1 (by decide) (by decide)

/-- C8 counterexample: at `v = -1/2`, `n = 3` (a value `≤ 1`), the code
truncates `v * n = -3/2` toward zero, giving `-1`, whereas the claimed
`floor(v * n)` is `-2`. -/
theorem C8_counterexample :
    parse_recycle_up_to (some (-1 / 2)) 3 = some (-1) ∧
    ⌊(-1 / 2 : ℚ) * ((3 : ℕ) : ℚ)⌋ = -2 ∧ (-1 : ℤ) ≠ -2 := by
  refine ⟨?_, ?_, by decide⟩
  · norm_num [parse_recycle_up_to, pyInt, Int.ceil_eq_iff]
  · norm_num [Int.floor_eq_iff]

/-- C8 (amended): `forward` normalizes `recycle_up_to` by: `None` ↦ no
recycling; `v ≤ 1` ↦ `int(v * n)`, truncation toward zero, which agrees with
`floor(v * n)` whenever `0 ≤ v`; `v > 1` ↦ `int(v) = floor v`. -/
theorem C8_parse_normalization (v : ℚ) (n : ℕ) :
    parse_recycle_up_to none n = none ∧
    (v ≤ 1 → parse_recycle_up_to (some v) n = some (pyInt (v * n))) ∧
    (0 ≤ v → v ≤ 1 → parse_recycle_up_to (some v) n = some ⌊v * n⌋) ∧
    (1 < v → parse_recycle_up_to (some v) n = some ⌊v⌋) := by
  refine ⟨rfl, fun h1 => ?_, fun h0 h1 => ?_, fun h2 => ?_⟩
  · simp only [parse_recycle_up_to]
    rw [if_pos h1]
  · simp only [parse_recycle_up_to]
    rw [if_pos h1, pyInt, if_pos (mul_nonneg h0 (by positivity))]
  · simp only [parse_recycle_up_to]
    rw [if_neg (by linarith), pyInt, if_pos (by linarith)]

/-- Witness for C8 at `v = 1/2`, `n = 4`. -/
theorem C8_parse_normalization_witness :
    parse_recycle_up_to (some (1 / 2)) 4 = some ⌊(1 / 2 : ℚ) * ((4 : ℕ) : ℚ)⌋ :=
  (C8_parse_normalization (1 / 2) 4).2.2.1 (by norm_num) (by norm_num)

/-- C9 counterexample: calling the statistic fit with the unsupported response
family "poisson" from the default (empty) warning-filter state raises the
invalid-configuration error while leaving the pushed ignore-filter in place:
the prior warning-filter state is not restored on this exit path. -/
theorem C9_counterexample :
    fit_lasso_warnstate "poisson" [] = (.error .valueError, [WarnFilter.ignoreAll]) ∧
    ([WarnFilter.ignoreAll] : List WarnFilter) ≠ [] :=
  ⟨by decide, by decide⟩

/-- C9 (amended): on the supported response families the warning-filter list
is reset to the empty default (which restores the prior state only when that
state was already the default), while on the invalid-configuration failure
path the pushed ignore-filter persists: the prior state is not restored. -/
theorem C9_warnstate (ydist : String) (s : List WarnFilter) :
    (ydist = "gaussian" ∨ ydist = "binomial" →
      fit_lasso_warnstate ydist s = (.ok (), [])) ∧
    (ydist ≠ "gaussian" → ydist ≠ "binomial" →
      fit_lasso_warnstate ydist s = (.error .valueError, WarnFilter.ignoreAll :: s)) := by
  constructor
  · rintro (rfl | rfl) <;> simp [fit_lasso_warnstate]
  · intro h1 h2
    simp only [fit_lasso_warnstate]
    rw [if_neg h1, if_neg h2]

/-- Witness for C9 at the gaussian family and a nonempty prior filter list. -/
theorem C9_warnstate_witness :
    fit_lasso_warnstate "gaussian" [WarnFilter.ignoreAll] = (.ok (), []) :=
  (C9_warnstate "gaussian" [WarnFilter.ignoreAll]).1 (Or.inl rfl)

end Knockadapt
